import Mathlib

/-!
Verification of the inogf interface-configuration program.

The program (Go sources: ipdb.go, interface.go, main.go, and the event
classifier / dispatcher file) reacts to gNMI streaming-telemetry
notifications and keeps interfaces that are admin-up configured with an IP
address from a small in-memory address database.

This file gives a shallow embedding of the program:
* Go maps (map[string]string, map[string]*interfaceSm) are modelled as
  association lists with the Go assignment / delete / lookup operations;
  Go's unspecified map iteration order in getIP's range loop is modelled as
  insertion order (the claims settled here do not depend on which free
  address the scan picks).
* the per-interface state machine (interface.go) is modelled as a pure
  function on a World record holding the machine, the database and a count
  of configuration pushes issued via setPrefix; glog calls are dropped
  (they do not affect state), and the sync.Mutex is dropped (each handler
  runs atomically under it in the source, which is exactly what modelling
  a handler as one pure function expresses).
* the 20-second configuration timer is modelled as a Bool that records
  whether a timer is pending; time itself is not modelled.
* strconv.Atoi is modelled with an unbounded Int result (the 64-bit range
  error of Atoi is not modelled; no claim touches it).
* the regular expressions of the event classifier are compiled by hand
  into explicit backtracking matchers over List Char.
-/

/-! ### Association lists: the model of Go string-keyed maps -/

/-- Lookup m[k] in a Go map modelled as an association list (first entry
with the given key; by construction keys are unique). -/
def getK {α : Type} : List (String × α) → String → Option α
  | [], _ => none
  | (k, v) :: t, k0 => if k = k0 then some v else getK t k0

/-- Go map assignment m[k] = v: replace the entry in place if the key is
present, otherwise append a new entry. -/
def setK {α : Type} : List (String × α) → String → α → List (String × α)
  | [], k0, v0 => [(k0, v0)]
  | (k, v) :: t, k0, v0 => if k = k0 then (k0, v0) :: t else (k, v) :: setK t k0 v0

/-- Go delete(m, k): remove the entry with the given key (if any). -/
def delK {α : Type} : List (String × α) → String → List (String × α)
  | [], _ => []
  | (k, v) :: t, k0 => if k = k0 then t else (k, v) :: delK t k0

/-- Keys of an association list. -/
def keysOf {α : Type} (l : List (String × α)) : List String := l.map Prod.fst

theorem getK_setK_self {α : Type} (l : List (String × α)) (k : String) (v : α) :
    getK (setK l k v) k = some v := by
  induction l with
  | nil => simp [getK, setK]
  | cons p t ih =>
    obtain ⟨k1, v1⟩ := p
    by_cases h : k1 = k
    · simp [setK, h, getK]
    · simp [setK, h, getK, ih]

theorem getK_setK_ne {α : Type} (l : List (String × α)) (k k' : String) (v : α)
    (h : k' ≠ k) : getK (setK l k v) k' = getK l k' := by
  have hkk : ¬ k = k' := fun he => h he.symm
  induction l with
  | nil => simp [getK, setK, hkk]
  | cons p t ih =>
    obtain ⟨k1, v1⟩ := p
    by_cases h1 : k1 = k
    · subst h1
      simp [setK, getK, hkk]
    · simp only [setK, if_neg h1, getK]
      by_cases h2 : k1 = k'
      · simp [h2]
      · simp [h2, ih]

theorem getK_eq_none_iff {α : Type} (l : List (String × α)) (k : String) :
    getK l k = none ↔ k ∉ keysOf l := by
  induction l with
  | nil => simp [getK, keysOf]
  | cons p t ih =>
    obtain ⟨k1, v1⟩ := p
    by_cases h : k1 = k
    · subst h
      simp [getK, keysOf]
    · have hs : ¬ k = k1 := fun he => h he.symm
      simp only [getK, if_neg h, keysOf, List.map_cons, List.mem_cons]
      rw [ih]
      simp [keysOf, hs]

theorem keysOf_setK_mem {α : Type} (l : List (String × α)) (k : String) (v : α)
    (h : k ∈ keysOf l) : keysOf (setK l k v) = keysOf l := by
  induction l with
  | nil => simp [keysOf] at h
  | cons p t ih =>
    obtain ⟨k1, v1⟩ := p
    by_cases h1 : k1 = k
    · simp [setK, h1, keysOf]
    · have hs : ¬ k = k1 := fun he => h1 he.symm
      simp only [keysOf, List.map_cons, List.mem_cons] at h
      have hm : k ∈ keysOf t := by
        rcases h with h | h
        · exact absurd h hs
        · exact h
      simp only [setK, if_neg h1, keysOf, List.map_cons, List.cons.injEq, true_and]
      exact ih hm

theorem keysOf_setK_not_mem {α : Type} (l : List (String × α)) (k : String) (v : α)
    (h : k ∉ keysOf l) : keysOf (setK l k v) = keysOf l ++ [k] := by
  induction l with
  | nil => simp [setK, keysOf]
  | cons p t ih =>
    obtain ⟨k1, v1⟩ := p
    simp only [keysOf, List.map_cons, List.mem_cons, not_or] at h
    have h1 : ¬ k1 = k := fun he => h.1 he.symm
    have ht : k ∉ keysOf t := h.2
    simp only [setK, if_neg h1, keysOf, List.map_cons, List.cons_append, List.cons.injEq, true_and]
    exact ih ht

theorem nodup_keysOf_setK {α : Type} (l : List (String × α)) (k : String) (v : α)
    (h : (keysOf l).Nodup) : (keysOf (setK l k v)).Nodup := by
  by_cases hm : k ∈ keysOf l
  · rw [keysOf_setK_mem l k v hm]; exact h
  · rw [keysOf_setK_not_mem l k v hm]
    simp [List.nodup_append, h, hm]

theorem delK_sublist {α : Type} (l : List (String × α)) (k : String) :
    List.Sublist (delK l k) l := by
  induction l with
  | nil => simp [delK]
  | cons p t ih =>
    obtain ⟨k1, v1⟩ := p
    by_cases h : k1 = k
    · simp only [delK, if_pos h]
      exact List.sublist_cons_self _ _
    · simp only [delK, if_neg h]
      exact ih.cons₂ _

theorem nodup_keysOf_delK {α : Type} (l : List (String × α)) (k : String)
    (h : (keysOf l).Nodup) : (keysOf (delK l k)).Nodup :=
  ((delK_sublist l k).map Prod.fst).nodup h

theorem getK_delK_ne {α : Type} (l : List (String × α)) (k k' : String)
    (h : k' ≠ k) : getK (delK l k) k' = getK l k' := by
  induction l with
  | nil => simp [delK]
  | cons p t ih =>
    obtain ⟨k1, v1⟩ := p
    by_cases h1 : k1 = k
    · subst h1
      have hs : ¬ k1 = k' := fun he => h (he.symm)
      simp [delK, getK, hs]
    · simp only [delK, if_neg h1, getK]
      by_cases h2 : k1 = k'
      · simp [h2]
      · simp [h2, ih]

theorem getK_delK_self {α : Type} (l : List (String × α)) (k : String)
    (h : (keysOf l).Nodup) : getK (delK l k) k = none := by
  induction l with
  | nil => simp [delK, getK]
  | cons p t ih =>
    obtain ⟨k1, v1⟩ := p
    simp only [keysOf, List.map_cons, List.nodup_cons] at h
    by_cases h1 : k1 = k
    · subst h1
      simp only [delK, if_pos rfl]
      rw [getK_eq_none_iff]
      exact h.1
    · simp only [delK, if_neg h1, getK, if_neg h1]
      exact ih h.2

theorem getK_of_mem {α : Type} (l : List (String × α)) (k : String) (v : α)
    (hnd : (keysOf l).Nodup) (h : (k, v) ∈ l) : getK l k = some v := by
  induction l with
  | nil => simp at h
  | cons p t ih =>
    obtain ⟨k1, v1⟩ := p
    simp only [keysOf, List.map_cons, List.nodup_cons] at hnd
    rcases List.mem_cons.mp h with h1 | h1
    · cases h1
      simp [getK]
    · have hk : ¬ k1 = k := by
        intro he
        subst he
        exact hnd.1 (List.mem_map_of_mem Prod.fst h1)
      simp only [getK, if_neg hk]
      exact ih hnd.2 h1

theorem mem_of_getK {α : Type} (l : List (String × α)) (k : String) (v : α)
    (h : getK l k = some v) : (k, v) ∈ l := by
  induction l with
  | nil => simp [getK] at h
  | cons p t ih =>
    obtain ⟨k1, v1⟩ := p
    simp only [getK] at h
    by_cases h1 : k1 = k
    · rw [if_pos h1] at h
      injection h with h
      subst h
      subst h1
      exact List.mem_cons_self _ _
    · rw [if_neg h1] at h
      exact List.mem_cons_of_mem _ (ih h)

/-! ### Decimal formatting: the model of fmt.Sprintf("10.0.%d.1", i) -/

/-- Decimal digit character, as produced by %d formatting. -/
def digitChar : Nat → Char
  | 0 => '0' | 1 => '1' | 2 => '2' | 3 => '3' | 4 => '4'
  | 5 => '5' | 6 => '6' | 7 => '7' | 8 => '8' | _ => '9'

/-- Fuel-driven decimal printer (structural recursion on the fuel so that
the kernel can evaluate it). -/
def decDigits : Nat → Nat → List Char
  | 0, _ => []
  | fuel + 1, n =>
    if n < 10 then [digitChar n] else decDigits fuel (n / 10) ++ [digitChar (n % 10)]

/-- Decimal representation of a natural number, as produced by the %d verb
of fmt.Sprintf. -/
def decStr (n : Nat) : List Char := decDigits (n + 1) n

theorem decDigits_congr : ∀ f1 f2 n : Nat, n < f1 → n < f2 →
    decDigits f1 n = decDigits f2 n := by
  intro f1
  induction f1 with
  | zero => intro f2 n h1 _; omega
  | succ g ih =>
    intro f2 n h1 h2
    match f2 with
    | 0 => omega
    | g2 + 1 =>
      by_cases h : n < 10
      · simp [decDigits, h]
      · have hd : n / 10 < n := Nat.div_lt_self (by omega) (by omega)
        simp only [decDigits, if_neg h]
        rw [ih g2 (n / 10) (by omega) (by omega)]

theorem decStr_eq (n : Nat) :
    decStr n = if n < 10 then [digitChar n] else decStr (n / 10) ++ [digitChar (n % 10)] := by
  by_cases h : n < 10
  · simp [decStr, decDigits, h]
  · have hd : n / 10 < n := Nat.div_lt_self (by omega) (by omega)
    rw [if_neg h]
    have h1 : decStr n = decDigits n (n / 10) ++ [digitChar (n % 10)] := by
      simp only [decStr, decDigits, if_neg h]
    rw [h1, decDigits_congr n (n / 10 + 1) (n / 10) (by omega) (by omega)]
    rfl

theorem decStr_ne_nil (n : Nat) : decStr n ≠ [] := by
  rw [decStr_eq]
  by_cases h : n < 10 <;> simp [h]

theorem digitChar_inj : ∀ a < 10, ∀ b < 10, digitChar a = digitChar b → a = b := by
  decide

theorem decStr_inj : ∀ a b : Nat, decStr a = decStr b → a = b := by
  intro a
  induction a using Nat.strong_induction_on with
  | _ a ih =>
    intro b h
    rw [decStr_eq a, decStr_eq b] at h
    by_cases ha : a < 10 <;> by_cases hb : b < 10
    · rw [if_pos ha, if_pos hb] at h
      injection h with h
      exact digitChar_inj a ha b hb h
    · rw [if_pos ha, if_neg hb] at h
      have hl := congrArg List.length h
      have hn := decStr_ne_nil (b / 10)
      simp [List.length_append] at hl
      exact absurd hl hn
    · rw [if_neg ha, if_pos hb] at h
      have hl := congrArg List.length h
      have hn := decStr_ne_nil (a / 10)
      simp [List.length_append] at hl
      exact absurd hl hn
    · rw [if_neg ha, if_neg hb] at h
      have hp := List.append_inj' h (by simp)
      have hd : a / 10 = b / 10 :=
        ih (a / 10) (Nat.div_lt_self (by omega) (by omega)) (b / 10) hp.1
      have hm : a % 10 = b % 10 := by
        have h2 := hp.2
        injection h2 with h2
        exact digitChar_inj _ (Nat.mod_lt _ (by omega)) _ (Nat.mod_lt _ (by omega)) h2
      omega

/-- Pool address number i, i.e. the string "10.0.&lt;i&gt;.1" built by initIPs. -/
def mkIPKey (i : Nat) : String := String.mk ("10.0.".data ++ decStr i ++ ".1".data)

theorem mkIPKey_inj : Function.Injective mkIPKey := by
  intro a b h
  have h0 : "10.0.".data ++ decStr a ++ ".1".data = "10.0.".data ++ decStr b ++ ".1".data :=
    congrArg String.data h
  rw [List.append_assoc, List.append_assoc] at h0
  have h1 := List.append_cancel_left h0
  have h2 := List.append_cancel_right h1
  exact decStr_inj a b h2

/-! ### The IP database (ipdb.go) -/

/-- Model of the ipDBManager struct of ipdb.go: a map from IP to the
interface holding it (empty string value means unassigned), a reverse map
from interface to its assigned IP (entries exist only for interfaces that
hold an IP), and the fixed prefix length of the pool. -/
structure ipDBManager where
  ips : List (String × String)
  interfaces : List (String × String)
  prefixLen : Int
deriving DecidableEq

/-- Model of initIPs of ipdb.go: n addresses "10.0.&lt;i&gt;.1" for i = 1..n, all
unassigned, with the given prefix length; both maps start empty otherwise. -/
def initIPs (n : Nat) (prefixLen : Int) : ipDBManager :=
  { ips := (List.range' 1 n).map (fun i => (mkIPKey i, ""))
    interfaces := []
    prefixLen := prefixLen }

/-- Model of (db *ipDBManager) getIP of ipdb.go. If the interface already
has an IP it is returned unchanged; otherwise the scan of the range loop
(modelled in insertion order) binds the first unassigned address; on
exhaustion the sentinel ("1.1.1.1", 32) is returned and nothing changes. -/
def ipDBManager.getIP (db : ipDBManager) (iface : String) : (String × Int) × ipDBManager :=
  match getK db.interfaces iface with
  | some addr => ((addr, db.prefixLen), db)
  | none =>
    match db.ips.find? (fun p => p.2 == "") with
    | some p =>
      ((p.1, db.prefixLen),
       { db with ips := setK db.ips p.1 iface, interfaces := setK db.interfaces iface p.1 })
    | none => (("1.1.1.1", 32), db)

/-- Model of (db *ipDBManager) reconcile of ipdb.go. The given IP is kept
when it is in the pool and unassigned or assigned to this same interface;
otherwise a fresh allocation is made via getIP and matched is false. -/
def ipDBManager.reconcile (db : ipDBManager) (iface ip : String) (prefixLen : Int) :
    (String × Int × Bool) × ipDBManager :=
  match getK db.ips ip with
  | some v =>
    if v = "" ∨ v = iface then
      ((ip, db.prefixLen, decide (prefixLen = db.prefixLen)),
       { db with ips := setK db.ips ip iface, interfaces := setK db.interfaces iface ip })
    else
      let r := db.getIP iface
      ((r.1.1, r.1.2, false), r.2)
  | none =>
    let r := db.getIP iface
    ((r.1.1, r.1.2, false), r.2)

/-- Model of (db *ipDBManager) releaseIP of ipdb.go. When the IP has an
entry in the pool map, its holder is deleted from the reverse map; then
(unconditionally, exactly as in the source) the assignment db.ips[ip] = ""
is performed, which inserts ip into the pool map if it was not a member. -/
def ipDBManager.releaseIP (db : ipDBManager) (ip : String) : ipDBManager :=
  let db1 :=
    match getK db.ips ip with
    | some iface => { db with interfaces := delK db.interfaces iface }
    | none => db
  { db1 with ips := setK db1.ips ip "" }

/-! ### The interface state machine (interface.go) -/

/-- State machine state constant unknown = 0 of interface.go. -/
def unknown : Int := 0

/-- State machine state constant adminDown = 1 of interface.go. -/
def adminDown : Int := 1

/-- State machine state constant adminUp = 2 of interface.go. -/
def adminUp : Int := 2

/-- State machine state constant configured = 3 of interface.go. -/
def configured : Int := 3

/-- Model of the interfaceSm struct of interface.go. The Go field prefix is
named pfx here (prefix is a Lean keyword); the *time.Timer field is
modelled as the Bool timerOn recording whether a timer is pending (set by
adminUp, cleared by Stop in adminDown and when the timer fires); the
mutex, context and gNMI client fields carry no state-machine information
and are dropped. -/
structure interfaceSm where
  state : Int
  name : String
  pfx : String
  prefixLen : Int
  timerOn : Bool
deriving DecidableEq

/-- Model of (sm *interfaceSm) configComplete of interface.go:
sm.prefix != "" && sm.prefixLen > 0. -/
def interfaceSm.configComplete (sm : interfaceSm) : Bool :=
  sm.pfx != "" && decide (sm.prefixLen > 0)

/-- World: one interface state machine together with the global IP database
and the number of configuration pushes issued so far via setPrefix
(main.go); a push is counted whether or not the gNMI Set call fails, since
the source only logs such failures. -/
structure World where
  sm : interfaceSm
  db : ipDBManager
  pushes : Nat
deriving DecidableEq

/-- Model of the (sm *interfaceSm) adminDown transition method of
interface.go: set state to adminDown, stop any pending timer, release the
currently recorded prefix. -/
def enterAdminDown (w : World) : World :=
  { sm := { w.sm with state := adminDown, timerOn := false }
    db := w.db.releaseIP w.sm.pfx
    pushes := w.pushes }

/-- Model of the (sm *interfaceSm) adminUp transition method of
interface.go: set state to adminUp and, if the configuration is not yet
complete, start the 20 second timer. -/
def enterAdminUp (w : World) : World :=
  let sm1 := { w.sm with state := adminUp }
  if sm1.configComplete then { w with sm := sm1 }
  else { w with sm := { sm1 with timerOn := true } }

/-- Model of the (sm *interfaceSm) configured transition method of
interface.go: set state to configured; if the configuration is complete,
reconcile it with the database and stop if it matched, otherwise allocate
a fresh IP; in both non-matching cases store the returned address and
prefix length and issue a configuration push (setPrefix; its error is only
logged in the source, so the push is counted unconditionally). -/
def enterConfigured (w : World) : World :=
  if w.sm.configComplete then
    let r := w.db.reconcile w.sm.name w.sm.pfx w.sm.prefixLen
    let sm1 := { w.sm with state := configured, pfx := r.1.1, prefixLen := r.1.2.1 }
    if r.1.2.2 then { sm := sm1, db := r.2, pushes := w.pushes }
    else { sm := sm1, db := r.2, pushes := w.pushes + 1 }
  else
    let r := w.db.getIP w.sm.name
    { sm := { w.sm with state := configured, pfx := r.1.1, prefixLen := r.1.2 }
      db := r.2
      pushes := w.pushes + 1 }

/-- Model of (sm *interfaceSm) adminStatusEventHandler of interface.go.
For value "UP": nothing if the state is above adminDown, otherwise the
adminUp transition followed by the configured transition when the
configuration is complete. For value "DOWN": the adminDown transition,
unconditionally. Any other value is only logged. -/
def adminStatusEventHandler (w : World) (value : String) : World :=
  if value = "UP" then
    if w.sm.state > adminDown then w
    else
      let w1 := enterAdminUp w
      if w1.sm.configComplete then enterConfigured w1 else w1
  else if value = "DOWN" then enterAdminDown w
  else w

/-- Model of (sm *interfaceSm) prefixEventHandler of interface.go: store
the value in the prefix field; then, only when the state is adminUp and
the configuration is complete, run the configured transition. -/
def prefixEventHandler (w : World) (value : String) : World :=
  let w1 : World := { w with sm := { w.sm with pfx := value } }
  if w1.sm.state ≠ adminUp then w1
  else if w1.sm.configComplete then enterConfigured w1
  else w1

/-- Model of strconv.Atoi restricted to its syntax: an optional sign
followed by at least one decimal digit; any other shape is a syntax error
(none). Successful values are returned as unbounded integers; the 64-bit
range check of Atoi is not modelled. -/
def atoi? (s : String) : Option Int :=
  let digitsVal : List Char → Option Nat := fun ds =>
    if ds.isEmpty then none
    else if ds.all (fun c => c.isDigit) then
      some (ds.foldl (fun acc c => acc * 10 + (c.toNat - 48)) 0)
    else none
  match s.data with
  | '+' :: ds => (digitsVal ds).map (fun n => (n : Int))
  | '-' :: ds => (digitsVal ds).map (fun n => -(n : Int))
  | ds => (digitsVal ds).map (fun n => (n : Int))

/-- Model of (sm *interfaceSm) prefixLenEventHandler of interface.go: the
value is converted with strconv.Atoi and the result is stored in the
prefixLen field even when the conversion failed (Atoi returns 0 with its
error, and the source only logs the error before the assignment); then,
only when the state is adminUp and the configuration is complete, run the
configured transition. -/
def prefixLenEventHandler (w : World) (value : String) : World :=
  let pl : Int := match atoi? value with | some n => n | none => 0
  let w1 : World := { w with sm := { w.sm with prefixLen := pl } }
  if w1.sm.state ≠ adminUp then w1
  else if w1.sm.configComplete then enterConfigured w1
  else w1

/-- Model of (sm *interfaceSm) timerEventHandler of interface.go: nothing
unless the state is adminUp; otherwise clear the timer handle and run the
configured transition. -/
def timerEventHandler (w : World) : World :=
  if w.sm.state ≠ adminUp then w
  else enterConfigured { w with sm := { w.sm with timerOn := false } }

/-! ### Direct results about the database operations -/

theorem setK_not_mem {α : Type} (l : List (String × α)) (k : String) (v : α)
    (h : k ∉ keysOf l) : setK l k v = l ++ [(k, v)] := by
  induction l with
  | nil => simp [setK]
  | cons p t ih =>
    obtain ⟨k1, v1⟩ := p
    simp only [keysOf, List.map_cons, List.mem_cons, not_or] at h
    have h1 : ¬ k1 = k := fun he => h.1 he.symm
    simp [setK, h1, ih h.2]

/-- Shared example database: a fresh two-address pool in which getIP has
just bound 10.0.1.1 to Ethernet1. -/
def dbEx : ipDBManager := ((initIPs 2 24).getIP "Ethernet1").2

/-- C9: an interface that already holds an address gets exactly that
address and the fixed prefix length back from getIP (allocate), and the
database is returned entirely unchanged. -/
theorem getIP_idempotent (db : ipDBManager) (iface addr : String)
    (h : getK db.interfaces iface = some addr) :
    db.getIP iface = ((addr, db.prefixLen), db) := by
  simp [ipDBManager.getIP, h]

theorem getIP_idempotent_witness :
    getK dbEx.interfaces "Ethernet1" = some "10.0.1.1" ∧
    dbEx.getIP "Ethernet1" = (("10.0.1.1", (24 : Int)), dbEx) :=
  ⟨by decide, getIP_idempotent dbEx "Ethernet1" "10.0.1.1" (by decide)⟩

/-- C6: reconcile keeps an address that is in the pool and unassigned or
already bound to the calling interface, binding it to the interface and
reporting matched exactly when the given prefix length equals the fixed
one; in every other case it hands out whatever getIP allocates, with
matched false. The kept branch is stated through lookups: the address maps
to the interface, the reverse map sends the interface to the address, and
no other entry of either map changes. -/
theorem reconcile_spec (db : ipDBManager) (iface ip : String) (plen : Int) :
    (∀ v, getK db.ips ip = some v → (v = "" ∨ v = iface) →
      (db.reconcile iface ip plen).1.1 = ip ∧
      (db.reconcile iface ip plen).1.2.1 = db.prefixLen ∧
      ((db.reconcile iface ip plen).1.2.2 = true ↔ plen = db.prefixLen) ∧
      getK (db.reconcile iface ip plen).2.ips ip = some iface ∧
      getK (db.reconcile iface ip plen).2.interfaces iface = some ip ∧
      (∀ a, a ≠ ip → getK (db.reconcile iface ip plen).2.ips a = getK db.ips a) ∧
      (∀ j, j ≠ iface →
        getK (db.reconcile iface ip plen).2.interfaces j = getK db.interfaces j) ∧
      (db.reconcile iface ip plen).2.prefixLen = db.prefixLen) ∧
    ((∀ v, getK db.ips ip = some v → ¬(v = "" ∨ v = iface)) →
      db.reconcile iface ip plen =
        (((db.getIP iface).1.1, (db.getIP iface).1.2, false), (db.getIP iface).2)) := by
  constructor
  · intro v hv hc
    have hr : db.reconcile iface ip plen =
        ((ip, db.prefixLen, decide (plen = db.prefixLen)),
         { db with ips := setK db.ips ip iface, interfaces := setK db.interfaces iface ip }) := by
      simp only [ipDBManager.reconcile, hv, if_pos hc]
    rw [hr]
    refine ⟨rfl, rfl, ?_, ?_, ?_, ?_, ?_, rfl⟩
    · exact decide_eq_true_iff
    · exact getK_setK_self db.ips ip iface
    · exact getK_setK_self db.interfaces iface ip
    · intro a ha
      exact getK_setK_ne db.ips ip a iface ha
    · intro j hj
      exact getK_setK_ne db.interfaces iface j ip hj
  · intro hv
    unfold ipDBManager.reconcile
    match he : getK db.ips ip with
    | some v => simp [if_neg (hv v he)]
    | none => simp

theorem reconcile_spec_witness :
    (dbEx.reconcile "Ethernet1" "10.0.1.1" 24).1.1 = "10.0.1.1" ∧
    ((dbEx.reconcile "Ethernet1" "10.0.1.1" 24).1.2.2 = true ↔ (24 : Int) = dbEx.prefixLen) := by
  have h := (reconcile_spec dbEx "Ethernet1" "10.0.1.1" 24).1 "Ethernet1"
    (by decide) (Or.inr rfl)
  exact ⟨h.1, h.2.2.1⟩

/-- C7: handling AdminStatus "DOWN" in any state sets the state to
adminDown, cancels any pending timer, releases the currently recorded
prefix back to the database (which afterwards records it as unassigned),
issues no push, and leaves the other state machine fields alone. -/
theorem adminStatus_down_spec (w : World) :
    (adminStatusEventHandler w "DOWN").sm.state = adminDown ∧
    (adminStatusEventHandler w "DOWN").sm.timerOn = false ∧
    (adminStatusEventHandler w "DOWN").db = w.db.releaseIP w.sm.pfx ∧
    getK (adminStatusEventHandler w "DOWN").db.ips w.sm.pfx = some "" ∧
    (adminStatusEventHandler w "DOWN").pushes = w.pushes ∧
    (adminStatusEventHandler w "DOWN").sm.name = w.sm.name ∧
    (adminStatusEventHandler w "DOWN").sm.pfx = w.sm.pfx ∧
    (adminStatusEventHandler w "DOWN").sm.prefixLen = w.sm.prefixLen := by
  have hne : ("DOWN" : String) ≠ "UP" := by decide
  simp only [adminStatusEventHandler, if_neg hne, if_pos rfl, enterAdminDown]
  refine ⟨rfl, rfl, rfl, ?_, rfl, rfl, rfl, rfl⟩
  unfold ipDBManager.releaseIP
  match he : getK w.db.ips w.sm.pfx with
  | some v => exact getK_setK_self _ _ _
  | none => exact getK_setK_self _ _ _

/-- C3 (amended): on a prefix-length value that does not parse as an
integer, the handler stores 0, the zero result Atoi returns alongside its
error, in the prefix-length field, and nothing else changes: no state
transition, no database change, no push. -/
theorem prefixLen_parse_failure (w : World) (value : String)
    (h : atoi? value = none) :
    prefixLenEventHandler w value = { w with sm := { w.sm with prefixLen := 0 } } := by
  simp [prefixLenEventHandler, h, interfaceSm.configComplete]

theorem prefixLen_parse_failure_witness :
    atoi? "abc" = none ∧
    prefixLenEventHandler ⟨⟨adminDown, "Ethernet1", "", 24, false⟩, initIPs 1 24, 0⟩ "abc" =
      ⟨⟨adminDown, "Ethernet1", "", 0, false⟩, initIPs 1 24, 0⟩ :=
  ⟨by decide,
   prefixLen_parse_failure ⟨⟨adminDown, "Ethernet1", "", 24, false⟩, initIPs 1 24, 0⟩ "abc"
     (by decide)⟩

/-- C3 counterexample: the claim as stated says the stored prefix-length
field keeps its previous value on a parse failure; here a machine holding
prefixLen 24 receives the unparseable value "abc" and the field becomes 0. -/
theorem prefixLen_parse_failure_modifies_field :
    (⟨⟨adminDown, "Ethernet1", "", 24, false⟩, initIPs 1 24, 0⟩ : World).sm.prefixLen = 24 ∧
    (prefixLenEventHandler ⟨⟨adminDown, "Ethernet1", "", 24, false⟩, initIPs 1 24, 0⟩
      "abc").sm.prefixLen = 0 := by
  decide

/-- C4 counterexample: releasing an address that is not a member of the
pool is not a no-op. Here the empty string, which initIPs never puts in
the pool (and which adminDown passes to releaseIP whenever an interface
goes down before any address was collected), is released against a fresh
one-address pool and the pool map gains a new entry. -/
theorem releaseIP_not_noop :
    getK (initIPs 1 24).ips "" = none ∧
    ((initIPs 1 24).releaseIP "").ips = (initIPs 1 24).ips ++ [("", "")] ∧
    ((initIPs 1 24).releaseIP "").ips ≠ (initIPs 1 24).ips := by
  decide

/-- C4 (amended): releasing an address that is not in the pool leaves the
reverse map, every existing pool entry and the prefix length unchanged,
but appends the released address to the pool map as a new unassigned
entry (the unconditional Go map assignment db.ips[ip] = "" inserts it). -/
theorem releaseIP_not_in_pool (db : ipDBManager) (ip : String)
    (h : getK db.ips ip = none) :
    (db.releaseIP ip).interfaces = db.interfaces ∧
    (db.releaseIP ip).ips = db.ips ++ [(ip, "")] ∧
    (db.releaseIP ip).prefixLen = db.prefixLen := by
  have hm : ip ∉ keysOf db.ips := (getK_eq_none_iff db.ips ip).mp h
  simp [ipDBManager.releaseIP, h, setK_not_mem db.ips ip "" hm]

theorem releaseIP_not_in_pool_witness :
    getK (initIPs 1 24).ips "10.9.9.9" = none ∧
    ((initIPs 1 24).releaseIP "10.9.9.9").ips = (initIPs 1 24).ips ++ [("10.9.9.9", "")] :=
  ⟨by decide, (releaseIP_not_in_pool (initIPs 1 24) "10.9.9.9" (by decide)).2.1⟩

/-- C2 counterexample: a machine whose collected address 10.0.1.1 is
already bound to it in the database, with complete fragments (non-empty
address, positive collected prefix length 16), still causes a
configuration push on entering Configured, because the collected prefix
length 16 differs from the database's fixed 24 and reconcile therefore
reports matched = false. -/
theorem configured_bound_same_iface_pushes :
    (⟨⟨adminUp, "Ethernet1", "10.0.1.1", 16, false⟩, dbEx, 0⟩ : World).sm.configComplete = true ∧
    getK dbEx.ips "10.0.1.1" = some "Ethernet1" ∧
    (enterConfigured ⟨⟨adminUp, "Ethernet1", "10.0.1.1", 16, false⟩, dbEx, 0⟩).pushes = 1 := by
  decide

/-- C2 (amended): entering Configured with complete fragments, the
collected address already bound to this same interface in the database,
and the collected prefix length equal to the database's fixed prefix
length issues no configuration push. -/
theorem configured_match_no_push (w : World)
    (hc : w.sm.configComplete = true)
    (hb : getK w.db.ips w.sm.pfx = some w.sm.name)
    (hl : w.sm.prefixLen = w.db.prefixLen) :
    (enterConfigured w).pushes = w.pushes ∧ (enterConfigured w).sm.state = configured := by
  have hr : w.db.reconcile w.sm.name w.sm.pfx w.sm.prefixLen =
      ((w.sm.pfx, w.db.prefixLen, decide (w.sm.prefixLen = w.db.prefixLen)),
       { w.db with ips := setK w.db.ips w.sm.pfx w.sm.name,
                   interfaces := setK w.db.interfaces w.sm.name w.sm.pfx }) := by
    simp [ipDBManager.reconcile, hb]
  have hd : decide (w.sm.prefixLen = w.db.prefixLen) = true := by
    rw [hl]; exact decide_eq_true rfl
  simp [enterConfigured, hc, hr, hd]

theorem configured_match_no_push_witness :
    (⟨⟨adminUp, "Ethernet1", "10.0.1.1", 24, false⟩, dbEx, 0⟩ : World).sm.configComplete = true ∧
    (enterConfigured ⟨⟨adminUp, "Ethernet1", "10.0.1.1", 24, false⟩, dbEx, 0⟩).pushes = 0 :=
  ⟨by decide,
   (configured_match_no_push ⟨⟨adminUp, "Ethernet1", "10.0.1.1", 24, false⟩, dbEx, 0⟩
     (by decide) (by decide) (by decide)).1⟩

/-! ### Reachable database states and the allocation invariants -/

/-- Reachable database states: everything produced from an initIPs pool by
an arbitrary interleaving of getIP, reconcile and releaseIP calls. The
interface-name arguments are required to be nonempty: the empty string is
the in-band "unassigned" sentinel of the pool map, and every call site in
the program passes a name captured by the Ethernet patterns of the event
classifier, hence nonempty. -/
inductive Reachable : ipDBManager → Prop
  | init (n : Nat) (prefixLen : Int) : Reachable (initIPs n prefixLen)
  | getIPStep (db : ipDBManager) (iface : String) :
      Reachable db → iface ≠ "" → Reachable (db.getIP iface).2
  | reconcileStep (db : ipDBManager) (iface ip : String) (plen : Int) :
      Reachable db → iface ≠ "" → Reachable (db.reconcile iface ip plen).2
  | releaseStep (db : ipDBManager) (ip : String) :
      Reachable db → Reachable (db.releaseIP ip)

/-- Invariant maintained by every database operation: both maps have
unique keys, the empty interface name never appears in the reverse map,
and every reverse-map entry is backed by the pool entry it points to. -/
def dbInv (db : ipDBManager) : Prop :=
  (keysOf db.ips).Nodup ∧ (keysOf db.interfaces).Nodup ∧
  "" ∉ keysOf db.interfaces ∧
  (∀ i a, getK db.interfaces i = some a → getK db.ips a = some i)

theorem dbInv_init (n : Nat) (prefixLen : Int) : dbInv (initIPs n prefixLen) := by
  refine ⟨?_, by simp [initIPs, keysOf], by simp [initIPs, keysOf], ?_⟩
  · have hk : keysOf (initIPs n prefixLen).ips = (List.range' 1 n).map mkIPKey := by
      simp [initIPs, keysOf, List.map_map, Function.comp]
    rw [hk]
    exact (List.nodup_range' 1 n).map mkIPKey_inj
  · intro i a h
    simp [initIPs, getK] at h

theorem notMem_keysOf_setK (l : List (String × String)) (k k0 : String) (v : String)
    (h : k ∉ keysOf l) (hk : ¬ k = k0) : k ∉ keysOf (setK l k0 v) := by
  by_cases hm : k0 ∈ keysOf l
  · rw [keysOf_setK_mem _ _ _ hm]; exact h
  · rw [keysOf_setK_not_mem _ _ _ hm]
    simp [h, hk]

theorem dbInv_getIP (db : ipDBManager) (iface : String) (hI : dbInv db)
    (hif : iface ≠ "") : dbInv (db.getIP iface).2 := by
  obtain ⟨h1, h2, h3, h4⟩ := hI
  cases hg : getK db.interfaces iface with
  | some addr =>
    simp only [ipDBManager.getIP, hg]
    exact ⟨h1, h2, h3, h4⟩
  | none =>
    cases hf : db.ips.find? (fun p => p.2 == "") with
    | none =>
      simp only [ipDBManager.getIP, hg, hf]
      exact ⟨h1, h2, h3, h4⟩
    | some p =>
      simp only [ipDBManager.getIP, hg, hf]
      have hpm : p ∈ db.ips := List.mem_of_find?_eq_some hf
      have hpe : p.2 = "" := by
        have hps := List.find?_some hf
        simpa using hps
      have hip : getK db.ips p.1 = some "" := by
        have hmm : (p.1, p.2) ∈ db.ips := by
          rw [Prod.mk.eta]; exact hpm
        have hgm := getK_of_mem db.ips p.1 p.2 h1 hmm
        rw [hpe] at hgm
        exact hgm
      refine ⟨nodup_keysOf_setK _ _ _ h1, nodup_keysOf_setK _ _ _ h2, ?_, ?_⟩
      · exact notMem_keysOf_setK _ _ _ _ h3 (fun he => hif he.symm)
      · intro i a hia
        by_cases hi : i = iface
        · subst hi
          rw [getK_setK_self] at hia
          injection hia with hia
          subst hia
          exact getK_setK_self _ _ _
        · rw [getK_setK_ne _ _ _ _ hi] at hia
          have hold := h4 i a hia
          by_cases ha : a = p.1
          · subst ha
            rw [hip] at hold
            injection hold with hold
            exfalso
            apply h3
            rw [← hold] at hia
            by_contra hmem
            rw [(getK_eq_none_iff _ _).mpr hmem] at hia
            cases hia
          · rw [getK_setK_ne _ _ _ _ ha]
            exact hold

theorem dbInv_releaseIP (db : ipDBManager) (ip : String) (hI : dbInv db) :
    dbInv (db.releaseIP ip) := by
  obtain ⟨h1, h2, h3, h4⟩ := hI
  cases hg : getK db.ips ip with
  | none =>
    simp only [ipDBManager.releaseIP, hg]
    refine ⟨nodup_keysOf_setK _ _ _ h1, h2, h3, ?_⟩
    intro i a hia
    have hold := h4 i a hia
    by_cases ha : a = ip
    · subst ha
      rw [hold] at hg
      cases hg
    · rw [getK_setK_ne _ _ _ _ ha]
      exact hold
  | some ifc =>
    simp only [ipDBManager.releaseIP, hg]
    refine ⟨nodup_keysOf_setK _ _ _ h1, nodup_keysOf_delK _ _ h2, ?_, ?_⟩
    · intro hmem
      exact h3 (((delK_sublist db.interfaces ifc).map Prod.fst).subset hmem)
    · intro i a hia
      by_cases hi : i = ifc
      · subst hi
        rw [getK_delK_self _ _ h2] at hia
        cases hia
      · rw [getK_delK_ne _ _ _ hi] at hia
        have hold := h4 i a hia
        by_cases ha : a = ip
        · subst ha
          rw [hg] at hold
          injection hold with hold
          exact absurd hold.symm hi
        · rw [getK_setK_ne _ _ _ _ ha]
          exact hold

theorem dbInv_reconcile (db : ipDBManager) (iface ip : String) (plen : Int)
    (hI : dbInv db) (hif : iface ≠ "") : dbInv (db.reconcile iface ip plen).2 := by
  obtain ⟨h1, h2, h3, h4⟩ := hI
  cases hg : getK db.ips ip with
  | none =>
    simp only [ipDBManager.reconcile, hg]
    exact dbInv_getIP db iface ⟨h1, h2, h3, h4⟩ hif
  | some v =>
    by_cases hc : v = "" ∨ v = iface
    · simp only [ipDBManager.reconcile, hg, if_pos hc]
      refine ⟨nodup_keysOf_setK _ _ _ h1, nodup_keysOf_setK _ _ _ h2, ?_, ?_⟩
      · exact notMem_keysOf_setK _ _ _ _ h3 (fun he => hif he.symm)
      · intro i a hia
        by_cases hi : i = iface
        · subst hi
          rw [getK_setK_self] at hia
          injection hia with hia
          subst hia
          exact getK_setK_self _ _ _
        · rw [getK_setK_ne _ _ _ _ hi] at hia
          have hold := h4 i a hia
          by_cases ha : a = ip
          · subst ha
            rw [hg] at hold
            injection hold with hold
            exfalso
            rcases hc with hc | hc
            · have hie : i = "" := by rw [← hold]; exact hc
              apply h3
              rw [hie] at hia
              by_contra hmem
              rw [(getK_eq_none_iff _ _).mpr hmem] at hia
              cases hia
            · exact hi (by rw [← hold]; exact hc)
          · rw [getK_setK_ne _ _ _ _ ha]
            exact hold
    · simp only [ipDBManager.reconcile, hg, if_neg hc]
      exact dbInv_getIP db iface ⟨h1, h2, h3, h4⟩ hif

theorem dbInv_reachable (db : ipDBManager) (h : Reachable db) : dbInv db := by
  induction h with
  | init n prefixLen => exact dbInv_init n prefixLen
  | getIPStep db iface _ hif ih => exact dbInv_getIP db iface ih hif
  | reconcileStep db iface ip plen _ hif ih => exact dbInv_reconcile db iface ip plen ih hif
  | releaseStep db ip _ ih => exact dbInv_releaseIP db ip ih

/-- C1: in every reachable database state no address is recorded as held
by two different interfaces: the pool map cannot contain two entries for
one address with different holders, and the reverse map cannot send two
different interfaces to the same address. -/
theorem allocation_uniqueness (db : ipDBManager) (h : Reachable db) :
    (∀ a i1 i2, (a, i1) ∈ db.ips → (a, i2) ∈ db.ips → i1 = i2) ∧
    (∀ i1 i2 a, getK db.interfaces i1 = some a → getK db.interfaces i2 = some a →
      i1 = i2) := by
  obtain ⟨h1, _, _, h4⟩ := dbInv_reachable db h
  constructor
  · intro a i1 i2 m1 m2
    have g1 := getK_of_mem db.ips a i1 h1 m1
    have g2 := getK_of_mem db.ips a i2 h1 m2
    exact Option.some.inj (g1.symm.trans g2)
  · intro i1 i2 a g1 g2
    exact Option.some.inj ((h4 i1 a g1).symm.trans (h4 i2 a g2))

theorem allocation_uniqueness_witness :
    ("10.0.1.1", "Ethernet1") ∈ dbEx.ips ∧ "Ethernet1" = "Ethernet1" := by
  have hr : Reachable dbEx :=
    Reachable.getIPStep (initIPs 2 24) "Ethernet1" (Reachable.init 2 24) (by decide)
  exact ⟨by decide,
    (allocation_uniqueness dbEx hr).1 "10.0.1.1" "Ethernet1" "Ethernet1"
      (by decide) (by decide)⟩

/-- Database reached from a fresh two-address pool by binding 10.0.1.1 to
interface A via reconcile, then rebinding A to 10.0.2.1 via reconcile
(which leaves the stale pool entry 10.0.1.1 -&gt; A behind), then releasing
10.0.2.1 (which deletes A from the reverse map entirely). -/
def dbC5 : ipDBManager :=
  ((((initIPs 2 24).reconcile "A" "10.0.1.1" 24).2.reconcile
      "A" "10.0.2.1" 24).2.releaseIP "10.0.2.1")

/-- C5 counterexample: the state dbC5 is reached by a getIP/reconcile/
releaseIP sequence, yet pool address 10.0.1.1 is mapped to interface A
while A has no entry in the reverse map, so the claimed iff
correspondence (reverse-map entry exists iff some pool address is
assigned to the interface) fails in the if direction. -/
theorem reverse_map_iff_fails :
    Reachable dbC5 ∧
    getK dbC5.ips "10.0.1.1" = some "A" ∧
    getK dbC5.interfaces "A" = none := by
  refine ⟨?_, by decide, by decide⟩
  exact Reachable.releaseStep _ "10.0.2.1"
    (Reachable.reconcileStep _ "A" "10.0.2.1" 24
      (Reachable.reconcileStep _ "A" "10.0.1.1" 24 (Reachable.init 2 24) (by decide))
      (by decide))

/-- C5 (amended): in every reachable state the correspondence holds in the
only-if direction: whenever an interface has an entry in the reverse map,
the address of that entry is a pool address currently assigned to it (so
in particular some pool address is assigned to the interface). The
converse direction fails (see the counterexample). -/
theorem reverse_map_sound (db : ipDBManager) (h : Reachable db) :
    ∀ i a, getK db.interfaces i = some a → getK db.ips a = some i :=
  (dbInv_reachable db h).2.2.2

theorem reverse_map_sound_witness :
    getK dbEx.interfaces "Ethernet1" = some "10.0.1.1" ∧
    getK dbEx.ips "10.0.1.1" = some "Ethernet1" := by
  have hr : Reachable dbEx :=
    Reachable.getIPStep (initIPs 2 24) "Ethernet1" (Reachable.init 2 24) (by decide)
  exact ⟨by decide, reverse_map_sound dbEx hr "Ethernet1" "10.0.1.1" (by decide)⟩

/-! ### Doubled delivery of notifications (C8) -/

/-- Stream notifications relevant to the idempotence property: an
AdminStatus "UP" notification, an Address fragment, a PrefixLength
fragment (each fragment carrying its raw string payload). -/
inductive notif : Type
  | up : notif
  | addr (value : String) : notif
  | plen (value : String) : notif

/-- Dispatch one notification to the event handler the dispatcher would
invoke for it. -/
def stepNotif (w : World) : notif → World
  | notif.up => adminStatusEventHandler w "UP"
  | notif.addr v => prefixEventHandler w v
  | notif.plen v => prefixLenEventHandler w v

/-- Deliver a list of notifications in order. -/
def runNotifs (w : World) (l : List notif) : World := l.foldl stepNotif w

/-- Each notification of the list delivered twice in a row. -/
def doubled (l : List notif) : List notif := (l.map (fun e => [e, e])).flatten

theorem enterConfigured_state (w : World) : (enterConfigured w).sm.state = configured := by
  simp only [enterConfigured]
  split
  · split <;> rfl
  · rfl

theorem enterConfigured_pushes_le (w : World) :
    (enterConfigured w).pushes ≤ w.pushes + 1 := by
  simp only [enterConfigured]
  split
  · split
    · exact Nat.le_succ _
    · exact Nat.le_refl _
  · exact Nat.le_refl _

theorem enterAdminUp_state (w : World) : (enterAdminUp w).sm.state = adminUp := by
  simp only [enterAdminUp]
  split <;> rfl

theorem enterAdminUp_pushes (w : World) : (enterAdminUp w).pushes = w.pushes := by
  simp only [enterAdminUp]
  split <;> rfl

theorem enterAdminUp_db (w : World) : (enterAdminUp w).db = w.db := by
  simp only [enterAdminUp]
  split <;> rfl

/-- AdminStatus "UP" is ignored above adminDown. -/
theorem adminStatus_up_high (w : World) (h : adminDown < w.sm.state) :
    adminStatusEventHandler w "UP" = w := by
  unfold adminStatusEventHandler
  rw [if_pos rfl, if_pos h]

/-- AdminStatus "UP" at or below adminDown runs the adminUp transition and
then the configured transition if the configuration is complete. -/
theorem adminStatus_up_low (w : World) (h : ¬ adminDown < w.sm.state) :
    adminStatusEventHandler w "UP" =
      (if (enterAdminUp w).sm.configComplete then enterConfigured (enterAdminUp w)
       else enterAdminUp w) := by
  unfold adminStatusEventHandler
  rw [if_pos rfl, if_neg h]

theorem prefixEventHandler_not_adminUp (w : World) (v : String)
    (h : w.sm.state ≠ adminUp) :
    prefixEventHandler w v = { w with sm := { w.sm with pfx := v } } := by
  simp only [prefixEventHandler]
  rw [if_pos h]

theorem prefixLenEventHandler_not_adminUp (w : World) (v : String)
    (h : w.sm.state ≠ adminUp) :
    prefixLenEventHandler w v =
      { w with sm := { w.sm with
          prefixLen := match atoi? v with | some n => n | none => 0 } } := by
  simp only [prefixLenEventHandler]
  rw [if_pos h]

/-- After an "UP" delivered at or below adminDown the state is above
adminDown (adminUp or configured). -/
theorem adminStatus_up_result_high (w : World) (h : ¬ adminDown < w.sm.state) :
    adminDown < (adminStatusEventHandler w "UP").sm.state := by
  rw [adminStatus_up_low w h]
  split
  · rw [enterConfigured_state]; decide
  · rw [enterAdminUp_state]; decide

/-- Simulation relation for the doubled-delivery argument: either the two
worlds are identical, or both machines are in state configured with the
same database and push count (their collected address and prefix-length
fields may differ, because a duplicate fragment overwrites the values
written back by reconcile, but at state configured the handlers never read
those fields again). -/
def simR (s t : World) : Prop :=
  s = t ∨ (s.sm.state = configured ∧ t.sm.state = configured ∧
           s.db = t.db ∧ s.pushes = t.pushes)

theorem simR_trans {a b c : World} (h1 : simR a b) (h2 : simR b c) : simR a c := by
  rcases h1 with rfl | ⟨ha, hb, hdb, hp⟩
  · exact h2
  · rcases h2 with rfl | ⟨_, hc, hdb2, hp2⟩
    · exact Or.inr ⟨ha, hb, hdb, hp⟩
    · exact Or.inr ⟨ha, hc, hdb.trans hdb2, hp.trans hp2⟩

/-- At state configured every notification handler leaves the state, the
database and the push count alone (it only stores raw fragment values). -/
theorem step_at_configured (w : World) (e : notif) (h : w.sm.state = configured) :
    (stepNotif w e).sm.state = configured ∧ (stepNotif w e).db = w.db ∧
    (stepNotif w e).pushes = w.pushes := by
  cases e with
  | up =>
    have hc : adminDown < w.sm.state := by rw [h]; decide
    simp only [stepNotif]
    rw [adminStatus_up_high w hc]
    exact ⟨h, rfl, rfl⟩
  | addr v =>
    have hne : w.sm.state ≠ adminUp := by rw [h]; decide
    simp only [stepNotif]
    rw [prefixEventHandler_not_adminUp w v hne]
    exact ⟨h, rfl, rfl⟩
  | plen v =>
    have hne : w.sm.state ≠ adminUp := by rw [h]; decide
    simp only [stepNotif]
    rw [prefixLenEventHandler_not_adminUp w v hne]
    exact ⟨h, rfl, rfl⟩

theorem simR_step (s t : World) (h : simR s t) (e : notif) :
    simR (stepNotif s e) (stepNotif t e) := by
  rcases h with rfl | ⟨hs, ht, hdb, hp⟩
  · exact Or.inl rfl
  · obtain ⟨hs1, hs2, hs3⟩ := step_at_configured s e hs
    obtain ⟨ht1, ht2, ht3⟩ := step_at_configured t e ht
    exact Or.inr ⟨hs1, ht1, by rw [hs2, ht2, hdb], by rw [hs3, ht3, hp]⟩

theorem prefixEventHandler_adminUp (w : World) (v : String)
    (h : w.sm.state = adminUp) :
    prefixEventHandler w v =
      (if ({ w with sm := { w.sm with pfx := v } } : World).sm.configComplete
       then enterConfigured { w with sm := { w.sm with pfx := v } }
       else { w with sm := { w.sm with pfx := v } }) := by
  simp only [prefixEventHandler]
  rw [if_neg (fun hn => hn h)]

theorem prefixLenEventHandler_adminUp (w : World) (v : String)
    (h : w.sm.state = adminUp) :
    prefixLenEventHandler w v =
      (if ({ w with sm := { w.sm with
              prefixLen := match atoi? v with | some n => n | none => 0 } } :
            World).sm.configComplete
       then enterConfigured { w with sm := { w.sm with
              prefixLen := match atoi? v with | some n => n | none => 0 } }
       else { w with sm := { w.sm with
              prefixLen := match atoi? v with | some n => n | none => 0 } }) := by
  simp only [prefixLenEventHandler]
  rw [if_neg (fun hn => hn h)]

/-- Delivering the same notification twice in a row is absorbed by simR:
the second copy either changes nothing at all, or (when the first copy
triggered the configured transition) re-stores only the raw fragment
value, which simR ignores at state configured. -/
theorem stepNotif_twice (s : World) (e : notif) :
    simR (stepNotif (stepNotif s e) e) (stepNotif s e) := by
  cases e with
  | up =>
    left
    by_cases h : adminDown < s.sm.state
    · simp only [stepNotif]
      rw [adminStatus_up_high s h, adminStatus_up_high s h]
    · simp only [stepNotif]
      rw [adminStatus_up_high _ (adminStatus_up_result_high s h)]
  | addr v =>
    simp only [stepNotif]
    by_cases h2 : s.sm.state = adminUp
    · rw [prefixEventHandler_adminUp s v h2]
      by_cases hc :
        ({ s with sm := { s.sm with pfx := v } } : World).sm.configComplete = true
      · rw [if_pos hc]
        have hne : (enterConfigured { s with sm := { s.sm with pfx := v } }).sm.state
            ≠ adminUp := by
          rw [enterConfigured_state]; decide
        rw [prefixEventHandler_not_adminUp _ v hne]
        right
        exact ⟨enterConfigured_state _, enterConfigured_state _, rfl, rfl⟩
      · rw [if_neg hc]
        rw [prefixEventHandler_adminUp { s with sm := { s.sm with pfx := v } } v h2]
        rw [if_neg hc]
        left
        rfl
    · rw [prefixEventHandler_not_adminUp s v h2]
      rw [prefixEventHandler_not_adminUp { s with sm := { s.sm with pfx := v } } v h2]
      left
      rfl
  | plen v =>
    simp only [stepNotif]
    by_cases h2 : s.sm.state = adminUp
    · rw [prefixLenEventHandler_adminUp s v h2]
      by_cases hc :
        ({ s with sm := { s.sm with
            prefixLen := match atoi? v with | some n => n | none => 0 } } :
          World).sm.configComplete = true
      · rw [if_pos hc]
        have hne : (enterConfigured { s with sm := { s.sm with
            prefixLen := match atoi? v with | some n => n | none => 0 } }).sm.state
            ≠ adminUp := by
          rw [enterConfigured_state]; decide
        rw [prefixLenEventHandler_not_adminUp _ v hne]
        right
        exact ⟨enterConfigured_state _, enterConfigured_state _, rfl, rfl⟩
      · rw [if_neg hc]
        rw [prefixLenEventHandler_adminUp { s with sm := { s.sm with
            prefixLen := match atoi? v with | some n => n | none => 0 } } v h2]
        rw [if_neg hc]
        left
        rfl
    · rw [prefixLenEventHandler_not_adminUp s v h2]
      rw [prefixLenEventHandler_not_adminUp { s with sm := { s.sm with
          prefixLen := match atoi? v with | some n => n | none => 0 } } v h2]
      left
      rfl

theorem simR_run (l : List notif) : ∀ s t : World, simR s t →
    simR (runNotifs s (doubled l)) (runNotifs t l) := by
  induction l with
  | nil =>
    intro s t h
    simpa [doubled, runNotifs] using h
  | cons e l ih =>
    intro s t h
    have hd : doubled (e :: l) = e :: e :: doubled l := by simp [doubled]
    rw [hd]
    show simR (runNotifs (stepNotif (stepNotif s e) e) (doubled l))
      (runNotifs (stepNotif t e) l)
    exact ih _ _ (simR_trans (stepNotif_twice s e) (simR_step s t h e))

/-- Push-count invariant: once configured at most one push has happened,
and before ever reaching configured none has. -/
def pushInv (w : World) : Prop :=
  (w.sm.state = configured → w.pushes ≤ 1) ∧ (w.sm.state ≠ configured → w.pushes = 0)

theorem pushInv_step (w : World) (e : notif) (h : pushInv w) :
    pushInv (stepNotif w e) := by
  by_cases hw : w.sm.state = configured
  · obtain ⟨h1, h2, h3⟩ := step_at_configured w e hw
    exact ⟨fun _ => by rw [h3]; exact h.1 hw, fun hne => absurd h1 hne⟩
  · have hp0 : w.pushes = 0 := h.2 hw
    cases e with
    | up =>
      by_cases hc : adminDown < w.sm.state
      · simp only [stepNotif]
        rw [adminStatus_up_high w hc]
        exact h
      · simp only [stepNotif]
        rw [adminStatus_up_low w hc]
        split
        · constructor
          · intro _
            have hle := enterConfigured_pushes_le (enterAdminUp w)
            rw [enterAdminUp_pushes] at hle
            omega
          · intro hne
            exact absurd (enterConfigured_state _) hne
        · constructor
          · intro h3
            rw [enterAdminUp_state w] at h3
            exact absurd h3 (by decide)
          · intro _
            rw [enterAdminUp_pushes]
            exact hp0
    | addr v =>
      by_cases h2 : w.sm.state = adminUp
      · simp only [stepNotif]
        rw [prefixEventHandler_adminUp w v h2]
        split
        · constructor
          · intro _
            have hle : (enterConfigured { w with sm := { w.sm with pfx := v } }).pushes
                ≤ w.pushes + 1 := enterConfigured_pushes_le _
            omega
          · intro hne
            exact absurd (enterConfigured_state _) hne
        · constructor
          · intro h3
            have h3' : w.sm.state = configured := h3
            rw [h2] at h3'
            exact absurd h3' (by decide)
          · intro _
            exact hp0
      · simp only [stepNotif]
        rw [prefixEventHandler_not_adminUp w v h2]
        constructor
        · intro h3
          exact absurd (h3 : w.sm.state = configured) hw
        · intro _
          exact hp0
    | plen v =>
      by_cases h2 : w.sm.state = adminUp
      · simp only [stepNotif]
        rw [prefixLenEventHandler_adminUp w v h2]
        split
        · constructor
          · intro _
            have hle : (enterConfigured { w with sm := { w.sm with
                prefixLen := match atoi? v with | some n => n | none => 0 } }).pushes
                ≤ w.pushes + 1 := enterConfigured_pushes_le _
            omega
          · intro hne
            exact absurd (enterConfigured_state _) hne
        · constructor
          · intro h3
            have h3' : w.sm.state = configured := h3
            rw [h2] at h3'
            exact absurd h3' (by decide)
          · intro _
            exact hp0
      · simp only [stepNotif]
        rw [prefixLenEventHandler_not_adminUp w v h2]
        constructor
        · intro h3
          exact absurd (h3 : w.sm.state = configured) hw
        · intro _
          exact hp0

theorem pushInv_run (l : List notif) : ∀ w : World, pushInv w →
    pushInv (runNotifs w l) := by
  induction l with
  | nil => intro w h; exact h
  | cons e l ih =>
    intro w h
    exact ih _ (pushInv_step w e h)

/-- C8: delivering every notification of a sequence of AdminStatus "UP",
Address and PrefixLength notifications twice in a row, in any relative
order (the statement quantifies over arbitrary such sequences, hence over
all six orders of the three pairs), leaves the machine in the same state
with the same database and the same number of pushes as delivering each
notification once, and at most one configuration push happens over the
whole doubled sequence. -/
theorem doubled_delivery_idempotent (w : World) (l : List notif) (h : w.pushes = 0) :
    (runNotifs w (doubled l)).sm.state = (runNotifs w l).sm.state ∧
    (runNotifs w (doubled l)).db = (runNotifs w l).db ∧
    (runNotifs w (doubled l)).pushes = (runNotifs w l).pushes ∧
    (runNotifs w (doubled l)).pushes ≤ 1 := by
  have hpi : pushInv (runNotifs w (doubled l)) :=
    pushInv_run (doubled l) w ⟨fun _ => by omega, fun _ => h⟩
  have hb : (runNotifs w (doubled l)).pushes ≤ 1 := by
    by_cases hc : (runNotifs w (doubled l)).sm.state = configured
    · exact hpi.1 hc
    · have h0 := hpi.2 hc
      omega
  rcases simR_run l w w (Or.inl rfl) with he | ⟨h1, h2, h3, h4⟩
  · rw [he] at hb ⊢
    exact ⟨rfl, rfl, rfl, hb⟩
  · exact ⟨h1.trans h2.symm, h3, h4, hb⟩

theorem doubled_delivery_idempotent_witness :
    ((runNotifs ⟨⟨unknown, "Ethernet1", "", 0, false⟩, initIPs 2 24, 0⟩
        (doubled [notif.up, notif.addr "10.0.1.1", notif.plen "24"])).sm.state =
      (runNotifs ⟨⟨unknown, "Ethernet1", "", 0, false⟩, initIPs 2 24, 0⟩
        [notif.up, notif.addr "10.0.1.1", notif.plen "24"]).sm.state) ∧
    (runNotifs ⟨⟨unknown, "Ethernet1", "", 0, false⟩, initIPs 2 24, 0⟩
        (doubled [notif.up, notif.addr "10.0.1.1", notif.plen "24"])).pushes ≤ 1 := by
  have h := doubled_delivery_idempotent
    ⟨⟨unknown, "Ethernet1", "", 0, false⟩, initIPs 2 24, 0⟩
    [notif.up, notif.addr "10.0.1.1", notif.plen "24"] rfl
  exact ⟨h.1, h.2.2.2⟩

/-! ### The event classifier and dispatcher (getEvent, dispatchEvent) -/

/-- Event type constant unknownEvent = 0. -/
def unknownEvent : Int := 0

/-- Event type constant adminStatusEvent = 1. -/
def adminStatusEvent : Int := 1

/-- Event type constant prefixEvent = 2. -/
def prefixEvent : Int := 2

/-- Event type constant prefixLenEvent = 3. -/
def prefixLenEvent : Int := 3

/-- Model of the event struct: event type and interface name (Go zero
value "" when absent). -/
structure event where
  evType : Int
  iface : String
deriving DecidableEq

/-- Literal "/interfaces/interface[name=", the fixed part of all three
path patterns up to the capture group. -/
def litName : List Char := "/interfaces/interface[name=".data

/-- Literal "Ethernet", the fixed head of the capture group
(Ethernet[^]]*) of all three patterns. -/
def litEth : List Char := "Ethernet".data

/-- The fixed 35-character prefix every pattern match must contain:
"/interfaces/interface[name=Ethernet". -/
def pfxLit : List Char := litName ++ litEth

/-- Strip an expected literal from the front of a string: some rest when
the literal is a prefix, none otherwise. -/
def stripPfxL : List Char → List Char → Option (List Char)
  | [], s => some s
  | _ :: _, [] => none
  | c :: t, c0 :: s => if c = c0 then stripPfxL t s else none

/-- Shared front of the three regular expressions of eventsRe:
"/interfaces/interface\[name=(Ethernet[^]]*)" matched at the start of s.
Since the character class [^]]* is followed by a literal "]" in every
pattern, the capture necessarily extends to the first "]" and no
backtracking over it is possible; returns the capture (group 1) and the
rest of the string starting at that "]". -/
def capAt (s : List Char) : Option (List Char × List Char) :=
  match stripPfxL litName s with
  | none => none
  | some r1 =>
    match stripPfxL litEth r1 with
    | none => none
    | some r2 =>
      some (litEth ++ r2.takeWhile (fun c => c != ']'),
            r2.dropWhile (fun c => c != ']'))

/-- Compiled form of the adminStatusEvent pattern
"/interfaces/interface\[name=(Ethernet[^]]*)\]/state/admin-status"
anchored at the start of s (the enclosing search over all start positions
is findMatch). -/
def matchAdminCore (s : List Char) : Option (List Char) :=
  match capAt s with
  | none => none
  | some (cap, rest) =>
    match stripPfxL "]/state/admin-status".data rest with
    | none => none
    | some _ => some cap

/-- One step of ".*(tail)" matching for the middle of the prefixEvent and
prefixLenEvent patterns: does "/address\[ip=[^]]*\](tail)" match at the
front of s (the [^]]* again necessarily stops at the first "]"). -/
def ipTailCheck (tail s : List Char) : Bool :=
  match stripPfxL "/address[ip=".data s with
  | none => false
  | some r =>
    match stripPfxL (']' :: tail) (r.dropWhile (fun c => c != ']')) with
    | none => false
    | some _ => true

/-- Search for "/address\[ip=[^]]*\](tail)" after ".*": try every split
point; "." does not match a newline in Go regexps, so the scan stops at
one. -/
def scanDotStar (tail : List Char) : List Char → Bool
  | [] => ipTailCheck tail []
  | c :: t => ipTailCheck tail (c :: t) || (c != '\n' && scanDotStar tail t)

/-- Compiled form of the prefixEvent pattern
"/interfaces/interface\[name=(Ethernet[^]]*)\]/.*/address\[ip=[^]]*\]/state/ip"
anchored at the start of s. -/
def matchIPCore (s : List Char) : Option (List Char) :=
  match capAt s with
  | none => none
  | some (cap, rest) =>
    match stripPfxL "]/".data rest with
    | none => none
    | some r3 => if scanDotStar "/state/ip".data r3 then some cap else none

/-- Compiled form of the prefixLenEvent pattern
"/interfaces/interface\[name=(Ethernet[^]]*)\]/.*/address\[ip=[^]]*\]/state/prefix-length"
anchored at the start of s. -/
def matchPLenCore (s : List Char) : Option (List Char) :=
  match capAt s with
  | none => none
  | some (cap, rest) =>
    match stripPfxL "]/".data rest with
    | none => none
    | some r3 => if scanDotStar "/state/prefix-length".data r3 then some cap else none

/-- FindStringSubmatch's unanchored search: try the pattern at every start
position, leftmost first. -/
def findMatch (core : List Char → Option (List Char)) : List Char → Option (List Char)
  | [] => core []
  | c :: t =>
    match core (c :: t) with
    | some cap => some cap
    | none => findMatch core t

/-- Model of getEvent: try each pattern of eventsRe and return the typed
event with the captured interface name, or an unknownEvent with no
interface name when nothing matches. The Go source ranges over the
eventsRe map in unspecified order; the fixed order used here agrees with
it on every path that matches at most one pattern, and in particular on
every path for which all three patterns fail. -/
def getEvent (path : String) : event :=
  match findMatch matchAdminCore path.data with
  | some cap => { evType := adminStatusEvent, iface := String.mk cap }
  | none =>
    match findMatch matchIPCore path.data with
    | some cap => { evType := prefixEvent, iface := String.mk cap }
    | none =>
      match findMatch matchPLenCore path.data with
      | some cap => { evType := prefixLenEvent, iface := String.mk cap }
      | none => { evType := unknownEvent, iface := "" }

/-- The dispatcher-owned system state: the global interfaces table of
state machines keyed by interface name, the IP database, and the push
count. -/
structure Sys where
  smTable : List (String × interfaceSm)
  db : ipDBManager
  pushes : Nat
deriving DecidableEq

/-- Model of getInterfaceSm: the stored machine for the interface or a
fresh zero-valued one (Go zero values: state unknown = 0, empty prefix,
prefix length 0, no timer) with its name field set. -/
def getInterfaceSm (tbl : List (String × interfaceSm)) (iface : String) : interfaceSm :=
  match getK tbl iface with
  | some sm => sm
  | none => { state := unknown, name := iface, pfx := "", prefixLen := 0, timerOn := false }

/-- Model of dispatchEvent: route the event to the handler selected by its
type on the machine of its interface (creating the machine on first
sight; the source inserts it in getInterfaceSm and the handler then
mutates it in place, which equals storing the handled machine under the
same key); unknown events are only logged. -/
def dispatchEvent (sys : Sys) (ev : event) (value : String) : Sys :=
  if ev.evType = adminStatusEvent then
    let w := adminStatusEventHandler ⟨getInterfaceSm sys.smTable ev.iface, sys.db, sys.pushes⟩ value
    ⟨setK sys.smTable ev.iface w.sm, w.db, w.pushes⟩
  else if ev.evType = prefixEvent then
    let w := prefixEventHandler ⟨getInterfaceSm sys.smTable ev.iface, sys.db, sys.pushes⟩ value
    ⟨setK sys.smTable ev.iface w.sm, w.db, w.pushes⟩
  else if ev.evType = prefixLenEvent then
    let w := prefixLenEventHandler ⟨getInterfaceSm sys.smTable ev.iface, sys.db, sys.pushes⟩ value
    ⟨setK sys.smTable ev.iface w.sm, w.db, w.pushes⟩
  else sys

/-- Admin-status notification path for an interface, as produced by the
gNMI update paths the program subscribes to (main.go). -/
def mkAdminStatusPath (name : String) : String :=
  "/interfaces/interface[name=" ++ name ++ "]/state/admin-status"

/-- Address (ip leaf) notification path for an interface and address. -/
def mkIpPath (name addrStr : String) : String :=
  "/interfaces/interface[name=" ++ name ++
    "]/subinterfaces/subinterface[index=0]/ipv4/addresses/address[ip=" ++ addrStr ++
    "]/state/ip"

/-- Prefix-length leaf notification path for an interface and address. -/
def mkPrefixLenPath (name addrStr : String) : String :=
  "/interfaces/interface[name=" ++ name ++
    "]/subinterfaces/subinterface[index=0]/ipv4/addresses/address[ip=" ++ addrStr ++
    "]/state/prefix-length"

/-! ### C10: non-Ethernet paths are classified unknownEvent -/

theorem stripPfxL_some {a : List Char} : ∀ {s r : List Char},
    stripPfxL a s = some r → s = a ++ r := by
  induction a with
  | nil =>
    intro s r h
    simp only [stripPfxL, Option.some.injEq] at h
    simp [h]
  | cons c t ih =>
    intro s r h
    cases s with
    | nil => simp [stripPfxL] at h
    | cons c0 s0 =>
      simp only [stripPfxL] at h
      split at h
      · rename_i hc
        subst hc
        rw [List.cons_append]
        rw [ih h]
      · cases h

theorem capAt_some {s : List Char} {pr : List Char × List Char}
    (h : capAt s = some pr) : pfxLit <+: s := by
  unfold capAt at h
  cases h1 : stripPfxL litName s with
  | none => simp [h1] at h
  | some r1 =>
    cases h2 : stripPfxL litEth r1 with
    | none => simp [h1, h2] at h
    | some r2 =>
      have hs1 := stripPfxL_some h1
      have hs2 := stripPfxL_some h2
      refine ⟨r2, ?_⟩
      rw [hs1, hs2]
      exact List.append_assoc litName litEth r2

theorem matchAdminCore_some {s cap : List Char} (h : matchAdminCore s = some cap) :
    pfxLit <+: s := by
  unfold matchAdminCore at h
  cases h1 : capAt s with
  | none => simp [h1] at h
  | some pr => exact capAt_some h1

theorem matchIPCore_some {s cap : List Char} (h : matchIPCore s = some cap) :
    pfxLit <+: s := by
  unfold matchIPCore at h
  cases h1 : capAt s with
  | none => simp [h1] at h
  | some pr => exact capAt_some h1

theorem matchPLenCore_some {s cap : List Char} (h : matchPLenCore s = some cap) :
    pfxLit <+: s := by
  unfold matchPLenCore at h
  cases h1 : capAt s with
  | none => simp [h1] at h
  | some pr => exact capAt_some h1

theorem findMatch_some {core : List Char → Option (List Char)} :
    ∀ {p cap : List Char}, findMatch core p = some cap →
      ∃ i, core (p.drop i) = some cap := by
  intro p
  induction p with
  | nil => intro cap h; exact ⟨0, h⟩
  | cons c t ih =>
    intro cap h
    unfold findMatch at h
    cases h1 : core (c :: t) with
    | some cap2 =>
      simp only [h1] at h
      exact ⟨0, by rw [List.drop_zero, h1, h]⟩
    | none =>
      simp only [h1] at h
      obtain ⟨i, hi⟩ := ih h
      exact ⟨i + 1, hi⟩

/-- When no start position of the path carries the mandatory literal
"/interfaces/interface[name=Ethernet", all three patterns fail and
getEvent returns the unknown event with no interface name. -/
theorem getEvent_unknown_of_no_lit (p : String)
    (h : ∀ i, ¬ pfxLit <+: (p.data.drop i)) :
    getEvent p = { evType := unknownEvent, iface := "" } := by
  unfold getEvent
  cases hm1 : findMatch matchAdminCore p.data with
  | some cap =>
    exfalso
    obtain ⟨i, hi⟩ := findMatch_some hm1
    exact h i (matchAdminCore_some hi)
  | none =>
    cases hm2 : findMatch matchIPCore p.data with
    | some cap =>
      exfalso
      obtain ⟨i, hi⟩ := findMatch_some hm2
      exact h i (matchIPCore_some hi)
    | none =>
      cases hm3 : findMatch matchPLenCore p.data with
      | some cap =>
        exfalso
        obtain ⟨i, hi⟩ := findMatch_some hm3
        exact h i (matchPLenCore_some hi)
      | none => rfl

theorem prefix_append_cases {α : Type} (x b c : List α) (h : x <+: b ++ c) :
    x <+: b ∨ b <+: x := by
  have hx : x = (b ++ c).take x.length := List.prefix_iff_eq_take.mp h
  rw [List.take_append_eq_append_take] at hx
  rcases Nat.le_total x.length b.length with hl | hl
  · left
    rw [Nat.sub_eq_zero_of_le hl] at hx
    simp only [List.take_zero, List.append_nil] at hx
    rw [List.prefix_iff_eq_take]
    exact hx
  · right
    rw [List.take_of_length_le hl] at hx
    exact ⟨_, hx.symm⟩

theorem no_prefix_drop_short (x rest : List Char) (hlen : rest.length < x.length) :
    ∀ k, ¬ x <+: rest.drop k := by
  intro k h
  have hle := h.length_le
  rw [List.length_drop] at hle
  omega

/-- No occurrence of pfxLit can start inside a segment that contains no
slash (pfxLit starts with one), and occurrences past it are occurrences in
the remainder. -/
theorem no_occ_append (nm rest : List Char) (hslash : '/' ∉ nm)
    (hrest : ∀ k, ¬ pfxLit <+: rest.drop k) :
    ∀ j, ¬ pfxLit <+: ((nm ++ rest).drop j) := by
  intro j h
  rw [List.drop_append_eq_append_drop] at h
  by_cases hj : j < nm.length
  · cases hx : nm.drop j with
    | nil =>
      have hlen := congrArg List.length hx
      rw [List.length_drop] at hlen
      simp at hlen
      omega
    | cons c l' =>
      rw [hx] at h
      obtain ⟨t, ht⟩ := h
      have hh := congrArg List.head? ht
      have hh2 : some '/' = some c := hh
      injection hh2 with hh2
      have hcm : c ∈ nm := by
        have hcd : c ∈ nm.drop j := by rw [hx]; exact List.mem_cons_self _ _
        exact (List.drop_sublist j nm).subset hcd
      rw [← hh2] at hcm
      exact hslash hcm
  · have hx : nm.drop j = [] := List.drop_eq_nil_of_le (by omega)
    rw [hx, List.nil_append] at h
    exact hrest _ h

/-- No occurrence of pfxLit can start inside a fixed middle segment when
that is checked exhaustively, and occurrences past it are occurrences in
the remainder. -/
theorem no_occ_concrete_append (mid rest2 : List Char)
    (hmid1 : ∀ k, k < mid.length → ¬ pfxLit <+: mid.drop k)
    (hmid2 : ∀ k, k < mid.length → ¬ mid.drop k <+: pfxLit)
    (hrest : ∀ k, ¬ pfxLit <+: rest2.drop k) :
    ∀ j, ¬ pfxLit <+: ((mid ++ rest2).drop j) := by
  intro j h
  rw [List.drop_append_eq_append_drop] at h
  by_cases hj : j < mid.length
  · rcases prefix_append_cases _ _ _ h with hc | hc
    · exact hmid1 j hj hc
    · exact hmid2 j hj hc
  · have hx : mid.drop j = [] := List.drop_eq_nil_of_le (by omega)
    rw [hx, List.nil_append] at h
    exact hrest _ h

/-- A name that does not begin with "Ethernet" followed by a "]" cannot
begin with "Ethernet" as a combined string either ("]" never occurs in
"Ethernet"). -/
theorem eth_not_prefix_append (nm rest : List Char) (h1 : ¬ litEth <+: nm)
    (h2 : ∃ r2, rest = ']' :: r2) : ¬ litEth <+: (nm ++ rest) := by
  intro h
  rcases prefix_append_cases _ _ _ h with hc | hc
  · exact h1 hc
  · obtain ⟨t, ht⟩ := h
    obtain ⟨u, hu⟩ := hc
    have hrest : rest = u ++ t := by
      have ht2 := ht
      rw [← hu, List.append_assoc] at ht2
      exact (List.append_cancel_left ht2).symm
    obtain ⟨r2, hr2⟩ := h2
    cases hu2 : u with
    | nil =>
      apply h1
      rw [hu2, List.append_nil] at hu
      rw [hu]
    | cons c u' =>
      have hcm : c ∈ litEth := by
        rw [← hu, hu2]
        exact List.mem_append_right _ (List.mem_cons_self _ _)
      rw [hu2, hr2] at hrest
      have hcc : ']' = c := by
        have hinj := hrest
        rw [List.cons_append] at hinj
        injection hinj with hinj
      rw [← hcc] at hcm
      exact absurd hcm (by decide)

/-- Occurrence analysis over the whole path litName ++ B: at position 0
the literal forces B to begin with "Ethernet"; a start strictly inside
litName disagrees with pfxLit (checked exhaustively); a start past
litName is an occurrence in B. -/
theorem no_occ_path (B : List Char) (hB0 : ¬ litEth <+: B)
    (hB : ∀ j, ¬ pfxLit <+: B.drop j) :
    ∀ i, ¬ pfxLit <+: ((litName ++ B).drop i) := by
  intro i h
  rw [List.drop_append_eq_append_drop] at h
  by_cases hi : i < litName.length
  · rcases Nat.eq_zero_or_pos i with hz | hpos
    · subst hz
      simp only [List.drop_zero, Nat.zero_sub] at h
      obtain ⟨t, ht⟩ := h
      rw [show pfxLit = litName ++ litEth from rfl, List.append_assoc] at ht
      have hbe := List.append_cancel_left ht
      exact hB0 ⟨t, hbe⟩
    · rcases prefix_append_cases _ _ _ h with hc | hc
      · have hle := hc.length_le
        rw [List.length_drop] at hle
        have h35 : pfxLit.length = 35 := by decide
        have h27 : litName.length = 27 := by decide
        omega
      · have hdec : ∀ k, k < 27 → 1 ≤ k → ¬ (litName.drop k <+: pfxLit) := by decide
        have h27 : litName.length = 27 := by decide
        exact hdec i (by omega) hpos hc
  · have hx : litName.drop i = [] := List.drop_eq_nil_of_le (by omega)
    rw [hx, List.nil_append] at h
    exact hB _ h

/-- C10: for every notification path whose interface name does not begin
with "Ethernet" (and whose name and address are well-formed path segment
values, containing no slash so that they stay within their bracketed
position in the path), each of the three leaf paths (admin-status, ip,
prefix-length) is classified as an unknownEvent with no interface name by
getEvent, and the dispatcher drops such an event: it creates no state
machine and changes nothing. -/
theorem nonEthernet_paths_dropped (name addrStr : String)
    (h1 : ¬ litEth <+: name.data)
    (h2 : '/' ∉ name.data)
    (h3 : '/' ∉ addrStr.data) :
    getEvent (mkAdminStatusPath name) = { evType := unknownEvent, iface := "" } ∧
    getEvent (mkIpPath name addrStr) = { evType := unknownEvent, iface := "" } ∧
    getEvent (mkPrefixLenPath name addrStr) = { evType := unknownEvent, iface := "" } ∧
    (∀ (sys : Sys) (value : String),
      dispatchEvent sys (getEvent (mkAdminStatusPath name)) value = sys ∧
      dispatchEvent sys (getEvent (mkIpPath name addrStr)) value = sys ∧
      dispatchEvent sys (getEvent (mkPrefixLenPath name addrStr)) value = sys) := by
  have hA : getEvent (mkAdminStatusPath name) = { evType := unknownEvent, iface := "" } := by
    apply getEvent_unknown_of_no_lit
    have hdata : (mkAdminStatusPath name).data
        = litName ++ (name.data ++ "]/state/admin-status".data) := by
      simp [mkAdminStatusPath, String.data_append, litName, List.append_assoc]
    rw [hdata]
    exact no_occ_path _
      (eth_not_prefix_append _ _ h1 ⟨"/state/admin-status".data, rfl⟩)
      (no_occ_append _ _ h2 (no_prefix_drop_short _ _ (by decide)))
  have hI : getEvent (mkIpPath name addrStr) = { evType := unknownEvent, iface := "" } := by
    apply getEvent_unknown_of_no_lit
    have hdata : (mkIpPath name addrStr).data
        = litName ++ (name.data ++
            ("]/subinterfaces/subinterface[index=0]/ipv4/addresses/address[ip=".data ++
             (addrStr.data ++ "]/state/ip".data))) := by
      simp [mkIpPath, String.data_append, litName, List.append_assoc]
    rw [hdata]
    refine no_occ_path _ (eth_not_prefix_append _ _ h1 ⟨_, rfl⟩) (no_occ_append _ _ h2 ?_)
    refine no_occ_concrete_append _ _ (by decide) (by decide) ?_
    exact no_occ_append _ _ h3 (no_prefix_drop_short _ _ (by decide))
  have hP : getEvent (mkPrefixLenPath name addrStr)
      = { evType := unknownEvent, iface := "" } := by
    apply getEvent_unknown_of_no_lit
    have hdata : (mkPrefixLenPath name addrStr).data
        = litName ++ (name.data ++
            ("]/subinterfaces/subinterface[index=0]/ipv4/addresses/address[ip=".data ++
             (addrStr.data ++ "]/state/prefix-length".data))) := by
      simp [mkPrefixLenPath, String.data_append, litName, List.append_assoc]
    rw [hdata]
    refine no_occ_path _ (eth_not_prefix_append _ _ h1 ⟨_, rfl⟩) (no_occ_append _ _ h2 ?_)
    refine no_occ_concrete_append _ _ (by decide) (by decide) ?_
    exact no_occ_append _ _ h3 (no_prefix_drop_short _ _ (by decide))
  have hdisp : ∀ (sys : Sys) (value : String),
      dispatchEvent sys { evType := unknownEvent, iface := "" } value = sys := by
    intro sys value
    have e1 : ¬ ((unknownEvent : Int) = adminStatusEvent) := by decide
    have e2 : ¬ ((unknownEvent : Int) = prefixEvent) := by decide
    have e3 : ¬ ((unknownEvent : Int) = prefixLenEvent) := by decide
    simp [dispatchEvent, e1, e2, e3]
  refine ⟨hA, hI, hP, fun sys value => ⟨?_, ?_, ?_⟩⟩
  · rw [hA]; exact hdisp sys value
  · rw [hI]; exact hdisp sys value
  · rw [hP]; exact hdisp sys value

theorem nonEthernet_paths_dropped_witness :
    getEvent (mkAdminStatusPath "Management1") = { evType := unknownEvent, iface := "" } ∧
    getEvent (mkIpPath "Loopback0" "10.0.0.1") = { evType := unknownEvent, iface := "" } := by
  have hM := nonEthernet_paths_dropped "Management1" "10.0.0.1"
    (by decide) (by decide) (by decide)
  have hL := nonEthernet_paths_dropped "Loopback0" "10.0.0.1"
    (by decide) (by decide) (by decide)
  exact ⟨hM.1, hL.2.1⟩
